import Mathlib

/-!
Verification of the session synchronization & trimming engine of
`pp_data_collection` against its design document.

The Python sources are shallowly embedded below:

* `utils/number_array.py` — `interval_intersection` (the interval sweep);
* `raw_process/recording_device.py` — gap segmentation
  (`InertialSensor._split_interrupted_ts`), the inertial resampling grid
  (`Watch._trim_data_with_offset`, `PhoneSensorLogger._trim_data_with_offset`),
  the camera cut bounds (`TimestampCamera._trim_data_with_offset`) and the
  idempotent-skip logic (`RecordingDevice.trim_raw` / `check_output_path`);
* `raw_process/task.py` — session-to-file matching
  (`Task.find_data_files_of_session`) and the cross-device intersection
  (`Task.find_start_end_ts_of_session`).

Machine integers of the source are modelled as `Int` (timestamps never
overflow in the source's domain); the float arithmetic of the resampling
grid and of the camera cut bounds is modelled exactly over `ℚ`.
-/

namespace PPDC

/-- A time segment `(start_ts, end_ts)` in integer milliseconds. -/
abbrev Itv := Int × Int

/-- `max(...)` of a Python list of ints; the `[]` case never occurs at call
sites (the sweep runs with at least two device lists). -/
def listMax : List Int → Int
  | [] => 0
  | x :: xs => xs.foldl max x

/-- `min(...)` of a Python list of ints. -/
def listMin : List Int → Int
  | [] => 0
  | x :: xs => xs.foldl min x

/-- `np.argmin`: index of the first occurrence of the minimum. -/
def argminFirst : List Int → Nat
  | [] => 0
  | [_] => 0
  | x :: y :: r =>
    if (y :: r).getD (argminFirst (y :: r)) 0 < x then argminFirst (y :: r) + 1 else 0

/-! ### The interval sweep of `utils/number_array.py`

The loop state is the list of per-device suffixes still to be processed
(the Python code keeps the full lists plus an index vector `pos_indices`;
keeping the `pos_indices`-suffixes is the same state).  `alive` is the
loop guard `np.all(pos_indices < all_len)`. -/

/-- Current interval of every device (the head of each remaining suffix). -/
def headsOf (state : List (List Itv)) : List Itv :=
  state.map (fun l => l.headD (0, 0))

/-- Start timestamps of all current intervals. -/
def startsOf (state : List (List Itv)) : List Int :=
  (headsOf state).map Prod.fst

/-- End timestamps of all current intervals (`endpoints` in the source). -/
def endsOf (state : List (List Itv)) : List Int :=
  (headsOf state).map Prod.snd

/-- `lo = max(... segment starts ...)`. -/
def loOf (state : List (List Itv)) : Int := listMax (startsOf state)

/-- `hi = min(endpoints)`. -/
def hiOf (state : List (List Itv)) : Int := listMin (endsOf state)

/-- Loop guard `np.all(pos_indices < all_len)`: every cursor in bounds. -/
def alive (state : List (List Itv)) : Bool :=
  state.all (fun l => !l.isEmpty)

/-- What one iteration appends to `result`: `[lo, hi]` if `lo < hi`. -/
def emitOf (state : List (List Itv)) : List Itv :=
  if loOf state < hiOf state then [(loOf state, hiOf state)] else []

/-- `pos_indices[np.argmin(endpoints)] += 1`: drop the head of the device
list whose current interval has the smallest endpoint (first such index). -/
def codeStep (state : List (List Itv)) : List (List Itv) :=
  state.set (argminFirst (endsOf state))
    ((state.getD (argminFirst (endsOf state)) []).tail)

/-- Modelled from the spec: "advance the cursor(s) whose current interval
has the smallest end (ties advance all tied cursors)". -/
def specStep (state : List (List Itv)) : List (List Itv) :=
  state.map (fun l => if (l.headD (0, 0)).2 = hiOf state then l.tail else l)

/-- Total number of intervals still to be processed; fuel for the loops. -/
def totalLen (state : List (List Itv)) : Nat :=
  (state.map List.length).sum

/-- The `while` loop of `interval_intersection`, fuelled.  `none` means the
fuel ran out before the guard failed (proved unreachable below when the
fuel is at least `totalLen`). -/
def sweepLoop : Nat → List (List Itv) → List Itv → Option (List Itv)
  | 0, state, acc => if alive state then none else some acc
  | fuel + 1, state, acc =>
    if alive state then sweepLoop fuel (codeStep state) (acc ++ emitOf state)
    else some acc

/-- Modelled from the spec: the sweep of §4.2 with the all-tied-cursors
advancement rule, fuelled like `sweepLoop`. -/
def specSweepLoop : Nat → List (List Itv) → List Itv → Option (List Itv)
  | 0, state, acc => if alive state then none else some acc
  | fuel + 1, state, acc =>
    if alive state then specSweepLoop fuel (specStep state) (acc ++ emitOf state)
    else some acc

/-- `interval_intersection` of `utils/number_array.py`.  `Except.error ()`
is the `ValueError` on an empty input list; the fuel-exhaustion branch is
also mapped to `Except.error ()` and proved unreachable. -/
def interval_intersection (intervals : List (List Itv)) : Except Unit (List Itv) :=
  if intervals.length = 0 then Except.error ()
  else if intervals.length = 1 then Except.ok (intervals.headD [])
  else
    match sweepLoop (totalLen intervals) intervals [] with
    | some r => Except.ok r
    | none => Except.error ()

/-- Modelled from the spec: the §4.2 contract with the all-tied advancement
rule, to be compared with `interval_intersection`. -/
def interval_intersection_specModel (intervals : List (List Itv)) : Except Unit (List Itv) :=
  if intervals.length = 0 then Except.error ()
  else if intervals.length = 1 then Except.ok (intervals.headD [])
  else
    match specSweepLoop (totalLen intervals) intervals [] with
    | some r => Except.ok r
    | none => Except.error ()

/-! ### The sorted-disjoint invariant on sweep states -/

/-- One device list is sorted and pairwise disjoint: each of its inclusive
intervals ends strictly before the next one starts. -/
def SortedDisjoint (l : List Itv) : Prop :=
  l.Chain' (fun p q => p.2 < q.1)

/-- Every interval of the list is well formed (`start ≤ end`). -/
def WfItvs (l : List Itv) : Prop := ∀ p ∈ l, p.1 ≤ p.2

/-- Every device list is sorted, pairwise disjoint and well formed. -/
def Inv (state : List (List Itv)) : Prop :=
  ∀ l ∈ state, SortedDisjoint l ∧ WfItvs l

def decSortedDisjoint : ∀ (l : List Itv), Decidable (SortedDisjoint l)
  | [] => isTrue List.chain'_nil
  | [p] => isTrue (List.chain'_singleton p)
  | p :: q :: r =>
    haveI := decSortedDisjoint (q :: r)
    decidable_of_iff (p.2 < q.1 ∧ SortedDisjoint (q :: r))
      (@List.chain'_cons Itv (fun a b : Itv => a.2 < b.1) p q r).symm

instance : ∀ (l : List Itv), Decidable (SortedDisjoint l) := decSortedDisjoint

instance (l : List Itv) : Decidable (WfItvs l) :=
  inferInstanceAs (Decidable (∀ p ∈ l, p.1 ≤ p.2))

instance (state : List (List Itv)) : Decidable (Inv state) :=
  inferInstanceAs (Decidable (∀ l ∈ state, SortedDisjoint l ∧ WfItvs l))

/-! ### Session-to-file matching (`Task.find_data_files_of_session`) -/

/-- Sum of the absolute start and end differences of one candidate file
extent from the logged session extent (`diff.sum(axis=1)` in the source). -/
def matchCost (logged cand : Itv) : Int :=
  |cand.1 - logged.1| + |cand.2 - logged.2|

/-- Index selected by `sensor_idx = np.argmin(diff.sum(axis=1))`. -/
def selectedIdx (logged : Itv) (cands : List Itv) : Nat :=
  argminFirst (cands.map (matchCost logged))

/-- Per-role body of `Task.find_data_files_of_session`: select the candidate
with the smallest summed start/end distance (first index on ties), then
`assert np.all(diff[sensor_idx] / 1000 < 180)`.  For integer millisecond
differences the float comparison `d / 1000 < 180` is exactly `d < 180000`.
`none` models the failed assertion. -/
def find_data_file (logged : Itv) (cands : List Itv) : Option Nat :=
  let k := selectedIdx logged cands
  let best := cands.getD k (0, 0)
  if |best.1 - logged.1| < 180000 ∧ |best.2 - logged.2| < 180000 then some k
  else none

/-! ### The inertial resampling grid

`Watch._trim_data_with_offset` and `PhoneSensorLogger._trim_data_with_offset`
both build
`new_ts = np.arange(np.floor((end_ts - start_ts) * r + 1)) / r + start_ts`
where `r = sampling_rate / 1000` (samples per millisecond).  The arithmetic
is modelled exactly over `ℚ`; on the claimed inputs every grid value is an
integer, so the trailing `astype(int)` is the identity. -/

/-- The target timestamp grid of the inertial trim methods. -/
def new_ts_grid (samplingRate : ℚ) (startTs endTs : Int) : List ℚ :=
  (List.range (Int.toNat (Int.floor ((endTs - startTs : ℚ) * samplingRate + 1)))).map
    (fun i : Nat => (i : ℚ) / samplingRate + (startTs : ℚ))

/-! ### Camera trim bounds (`TimestampCamera._trim_data_with_offset`) -/

/-- Relative cut bounds in seconds computed by the camera trim after the
millisecond timestamps are divided by 1000:
`start_sec = max(start_ts/1000 - video_start, 0)` and
`end_sec = min(end_ts/1000, video_end) - video_start`, modelled exactly
over `ℚ`. -/
def camera_trim_times (videoStartTs videoEndTs startTs endTs : Int) : ℚ × ℚ :=
  (max ((startTs : ℚ) / 1000 - (videoStartTs : ℚ) / 1000) 0,
   min ((endTs : ℚ) / 1000) ((videoEndTs : ℚ) / 1000) - (videoStartTs : ℚ) / 1000)

/-! ### Gap segmentation (`InertialSensor._split_interrupted_ts`)

The raw timestamp array is split at every position where the successive
difference exceeds `max_time_gap`; segments shorter than `min_session_len`
are dropped; the method returns `None` when there is no gap at all, and the
caller `Task.find_start_end_ts_of_session` then substitutes the whole-file
extent as a singleton list. -/

/-- Gap indices `(np.diff(ts) > max_time_gap).nonzero()[0]`. -/
def gapPositions (maxGap : Int) (ts : List Int) : List Nat :=
  (List.range (ts.length - 1)).filter
    (fun i => maxGap < ts.getD (i + 1) 0 - ts.getD i 0)

/-- Segment boundaries `np.concatenate([[0], split_idx + 1, [len(ts)]])`. -/
def segBounds (maxGap : Int) (ts : List Int) : List Nat :=
  0 :: ((gapPositions maxGap ts).map (· + 1) ++ [ts.length])

/-- The per-boundary-pair segments
`(ts[split_idx[i]], ts[split_idx[i+1] - 1])` of the source loop. -/
def segsOf (maxGap : Int) (ts : List Int) : List Itv :=
  (List.range ((segBounds maxGap ts).length - 1)).map (fun i =>
    (ts.getD ((segBounds maxGap ts).getD i 0) 0,
     ts.getD ((segBounds maxGap ts).getD (i + 1) 0 - 1) 0))

/-- `InertialSensor._split_interrupted_ts`; `none` is Python `None`. -/
def split_interrupted_ts (maxGap minLen : Int) (ts : List Int) : Option (List Itv) :=
  if gapPositions maxGap ts = [] then none
  else some ((segsOf maxGap ts).filter (fun p => minLen ≤ p.2 - p.1))

/-- The four registered device types of `constants.DeviceType`. -/
inductive DeviceKind
  | cam
  | watch
  | sensorlogger
  | timerapp
deriving DecidableEq

/-- Device types whose `_split_interrupted_ts` is the inertial one. -/
def isInertial : DeviceKind → Bool
  | DeviceKind.watch => true
  | DeviceKind.sensorlogger => true
  | _ => false

/-- `_split_interrupted_ts` by device type: `TimestampCamera` and
`TimerApp` always return `None`. -/
def split_interrupted_ts_of (kind : DeviceKind) (maxGap minLen : Int)
    (ts : List Int) : Option (List Itv) :=
  match kind with
  | DeviceKind.watch => split_interrupted_ts maxGap minLen ts
  | DeviceKind.sensorlogger => split_interrupted_ts maxGap minLen ts
  | DeviceKind.cam => none
  | DeviceKind.timerapp => none

/-- Gap list of one file as used by `Task.find_start_end_ts_of_session`:
the `None` result is replaced by the singleton whole-file extent. -/
def getGaps (kind : DeviceKind) (maxGap minLen : Int) (ts : List Int)
    (extent : Itv) : List Itv :=
  match split_interrupted_ts_of kind maxGap minLen ts with
  | none => [extent]
  | some segs => segs

/-- Prepend a sample to the first run (starting a fresh run when there is
none). -/
def consRun (x : Int) : List (List Int) → List (List Int)
  | [] => [[x]]
  | r :: rs => (x :: r) :: rs

/-- Modelled from the spec: maximal runs of consecutive samples whose
successive differences do not exceed the gap threshold. -/
def gapRuns (maxGap : Int) : List Int → List (List Int)
  | [] => []
  | [x] => [[x]]
  | x :: y :: rest =>
    if maxGap < y - x then [x] :: gapRuns maxGap (y :: rest)
    else consRun x (gapRuns maxGap (y :: rest))

/-! ### Idempotent skip (`RecordingDevice.trim_raw` / `check_output_path`)

The filesystem is modelled as the list of existing paths plus a trace of
the read/write effects a call performs; an empty trace means the
filesystem state is unchanged. -/

/-- Filesystem effects of one `trim_raw` call. -/
inductive FsAction
  | readFile (p : String)
  | writeFile (p : String)
deriving DecidableEq

/-- `RecordingDevice.check_output_path`: append the configured output
format extension, then return `None` if the destination already exists. -/
def check_output_path (fs : List String) (ext outputPath : String) : Option String :=
  if (outputPath ++ ext) ∈ fs then none else some (outputPath ++ ext)

/-- Reads performed by `_read_raw_data` of each device type
(`PhoneSensorLogger` reads the gyroscope and acceleration files of the
folder; the camera reads the video once through the external cutter). -/
def deviceTrimActions (kind : DeviceKind) (inputPath p : String) : List FsAction :=
  match kind with
  | DeviceKind.cam => [FsAction.readFile inputPath, FsAction.writeFile p]
  | DeviceKind.timerapp => [FsAction.readFile inputPath, FsAction.writeFile p]
  | DeviceKind.watch => [FsAction.readFile inputPath, FsAction.writeFile p]
  | DeviceKind.sensorlogger =>
      [FsAction.readFile (inputPath ++ "/Gyroscope.csv"),
       FsAction.readFile (inputPath ++ "/TotalAcceleration.csv"),
       FsAction.writeFile p]

/-- `RecordingDevice.trim_raw`: check-and-skip, else read the raw data,
add the offset and let the device-specific `_trim_data_with_offset` write
the artifact and return the extended output path (all four registered
types do). -/
def trim_raw (kind : DeviceKind) (fs : List String)
    (ext inputPath outputPath : String) : Option String × List FsAction :=
  match check_output_path fs ext outputPath with
  | none => (none, [])
  | some p => (some p, deviceTrimActions kind inputPath p)

/-! ### Offsets and the cross-device intersection
(`Task.find_start_end_ts_of_session`)

Each row of the per-session dataframe carries the offset-corrected
whole-file extent (`find_data_files_of_session` documents its time columns
as "after offset"), while `split_interrupted_ts` re-reads the raw
timestamp array of the file, to which no offset has been applied. -/

/-- One row of the per-session dataframe together with the raw timestamp
content of its file. -/
structure SensorRow where
  deviceType : DeviceKind
  startTs : Int
  endTs : Int
  rawTs : List Int

/-- `Task.find_start_end_ts_of_session`: exclude the TimerApp row, build
each sensor's interval list (the raw gap segments, or the offset-corrected
whole-file extent when no gap was found), and intersect across devices. -/
def find_start_end_ts_of_session (maxGap minLen : Int) (rows : List SensorRow) :
    Except Unit (List Itv) :=
  let df := rows.filter (fun r => r.deviceType ≠ DeviceKind.timerapp)
  interval_intersection (df.map (fun r =>
    getGaps r.deviceType maxGap minLen r.rawTs (r.startTs, r.endTs)))

/-! ### Elementary facts about `listMax`, `listMin`, `argminFirst` -/

theorem foldl_max_init_le : ∀ (xs : List Int) (a : Int), a ≤ xs.foldl max a := by
  intro xs
  induction xs with
  | nil => intro a; simp
  | cons x xs ih =>
    intro a
    calc a ≤ max a x := le_max_left a x
    _ ≤ xs.foldl max (max a x) := ih (max a x)

theorem foldl_max_mem_le : ∀ (xs : List Int) (a x : Int), x ∈ xs → x ≤ xs.foldl max a := by
  intro xs
  induction xs with
  | nil => intro a x hx; cases hx
  | cons y ys ih =>
    intro a x hx
    simp only [List.foldl_cons]
    rcases List.mem_cons.mp hx with h | h
    · subst h
      calc x ≤ max a x := le_max_right a x
      _ ≤ ys.foldl max (max a x) := foldl_max_init_le ys (max a x)
    · exact ih (max a y) x h

theorem foldl_max_cases : ∀ (xs : List Int) (a : Int),
    xs.foldl max a = a ∨ xs.foldl max a ∈ xs := by
  intro xs
  induction xs with
  | nil => intro a; left; rfl
  | cons y ys ih =>
    intro a
    simp only [List.foldl_cons]
    rcases ih (max a y) with h | h
    · rcases max_cases a y with ⟨he, _⟩ | ⟨he, _⟩
      · left; rw [h, he]
      · right; rw [h, he]; exact List.mem_cons_self y ys
    · right; exact List.mem_cons_of_mem y h

theorem le_listMax {l : List Int} {x : Int} (hx : x ∈ l) : x ≤ listMax l := by
  cases l with
  | nil => cases hx
  | cons y ys =>
    rcases List.mem_cons.mp hx with h | h
    · subst h; exact foldl_max_init_le ys x
    · exact foldl_max_mem_le ys y x h

theorem listMax_mem {l : List Int} (hl : l ≠ []) : listMax l ∈ l := by
  cases l with
  | nil => exact absurd rfl hl
  | cons y ys =>
    rcases foldl_max_cases ys y with h | h
    · simp only [listMax, h]; exact List.mem_cons_self y ys
    · exact List.mem_cons_of_mem y h

theorem foldl_min_le_init : ∀ (xs : List Int) (a : Int), xs.foldl min a ≤ a := by
  intro xs
  induction xs with
  | nil => intro a; simp
  | cons x xs ih =>
    intro a
    calc xs.foldl min (min a x) ≤ min a x := ih (min a x)
    _ ≤ a := min_le_left a x

theorem foldl_min_le_mem : ∀ (xs : List Int) (a x : Int), x ∈ xs → xs.foldl min a ≤ x := by
  intro xs
  induction xs with
  | nil => intro a x hx; cases hx
  | cons y ys ih =>
    intro a x hx
    rcases List.mem_cons.mp hx with h | h
    · subst h
      calc ys.foldl min (min a x) ≤ min a x := foldl_min_le_init ys (min a x)
      _ ≤ x := min_le_right a x
    · exact ih (min a y) x h

theorem foldl_min_cases : ∀ (xs : List Int) (a : Int),
    xs.foldl min a = a ∨ xs.foldl min a ∈ xs := by
  intro xs
  induction xs with
  | nil => intro a; left; rfl
  | cons y ys ih =>
    intro a
    simp only [List.foldl_cons]
    rcases ih (min a y) with h | h
    · rcases min_cases a y with ⟨he, _⟩ | ⟨he, _⟩
      · left; rw [h, he]
      · right; rw [h, he]; exact List.mem_cons_self y ys
    · right; exact List.mem_cons_of_mem y h

theorem listMin_le {l : List Int} {x : Int} (hx : x ∈ l) : listMin l ≤ x := by
  cases l with
  | nil => cases hx
  | cons y ys =>
    rcases List.mem_cons.mp hx with h | h
    · subst h; exact foldl_min_le_init ys x
    · exact foldl_min_le_mem ys y x h

theorem listMin_mem {l : List Int} (hl : l ≠ []) : listMin l ∈ l := by
  cases l with
  | nil => exact absurd rfl hl
  | cons y ys =>
    rcases foldl_min_cases ys y with h | h
    · simp only [listMin, h]; exact List.mem_cons_self y ys
    · exact List.mem_cons_of_mem y h

theorem listMin_eq_of {l : List Int} {m : Int} (hmem : m ∈ l) (hle : ∀ x ∈ l, m ≤ x) :
    listMin l = m :=
  le_antisymm (listMin_le hmem) (hle _ (listMin_mem (List.ne_nil_of_mem hmem)))

theorem listMax_perm {l₁ l₂ : List Int} (h : l₁.Perm l₂) : listMax l₁ = listMax l₂ := by
  cases l₁ with
  | nil => cases h.nil_eq; rfl
  | cons x xs =>
    have h₂ : l₂ ≠ [] := by
      intro he; subst he; exact absurd h.symm.nil_eq (by simp)
    exact le_antisymm
      (le_listMax (h.mem_iff.mp (listMax_mem (by simp))))
      (le_listMax (h.mem_iff.mpr (listMax_mem h₂)))

theorem listMin_perm {l₁ l₂ : List Int} (h : l₁.Perm l₂) : listMin l₁ = listMin l₂ := by
  cases l₁ with
  | nil => cases h.nil_eq; rfl
  | cons x xs =>
    have h₂ : l₂ ≠ [] := by
      intro he; subst he; exact absurd h.symm.nil_eq (by simp)
    exact le_antisymm
      (listMin_le (h.mem_iff.mpr (listMin_mem h₂)))
      (listMin_le (h.mem_iff.mp (listMin_mem (by simp))))

theorem argminFirst_lt_length : ∀ {l : List Int}, l ≠ [] → argminFirst l < l.length := by
  intro l
  induction l with
  | nil => intro h; exact absurd rfl h
  | cons x xs ih =>
    intro _
    cases xs with
    | nil => simp [argminFirst]
    | cons y r =>
      have hlt := ih (by simp)
      simp only [argminFirst]
      by_cases h : (y :: r).getD (argminFirst (y :: r)) 0 < x
      · rw [if_pos h]; simpa using Nat.succ_lt_succ hlt
      · rw [if_neg h]; simp

theorem argminFirst_getD : ∀ {l : List Int}, l ≠ [] →
    l.getD (argminFirst l) 0 = listMin l := by
  intro l
  induction l with
  | nil => intro h; exact absurd rfl h
  | cons x xs ih =>
    intro _
    cases xs with
    | nil => simp [argminFirst, listMin]
    | cons y r =>
      have hne : (y :: r) ≠ ([] : List Int) := by simp
      have hmin := ih hne
      have hmem := listMin_mem hne
      simp only [argminFirst]
      by_cases h : (y :: r).getD (argminFirst (y :: r)) 0 < x
      · -- tail minimum is strictly smaller than the head
        rw [if_pos h]
        rw [hmin] at h
        rw [List.getD_cons_succ, hmin]
        refine (listMin_eq_of (List.mem_cons_of_mem x hmem) ?_).symm
        intro z hz
        rcases List.mem_cons.mp hz with hz | hz
        · subst hz; exact le_of_lt h
        · exact listMin_le hz
      · -- head is a minimum
        rw [if_neg h]
        rw [hmin] at h
        rw [List.getD_cons_zero]
        refine (listMin_eq_of (List.mem_cons_self x (y :: r)) ?_).symm
        intro z hz
        rcases List.mem_cons.mp hz with hz | hz
        · exact le_of_eq hz.symm
        · exact le_trans (le_of_not_lt h) (listMin_le hz)

theorem argminFirst_strict_before : ∀ {l : List Int} {j : Nat}, j < argminFirst l →
    listMin l < l.getD j 0 := by
  intro l
  induction l with
  | nil => intro j hj; simp [argminFirst] at hj
  | cons x xs ih =>
    intro j hj
    cases xs with
    | nil => simp [argminFirst] at hj
    | cons y r =>
      have hne : (y :: r) ≠ ([] : List Int) := by simp
      simp only [argminFirst] at hj
      by_cases h : (y :: r).getD (argminFirst (y :: r)) 0 < x
      · rw [if_pos h] at hj
        rw [argminFirst_getD hne] at h
        have hmin : listMin (x :: y :: r) = listMin (y :: r) := by
          refine listMin_eq_of (List.mem_cons_of_mem x (listMin_mem hne)) ?_
          intro z hz
          rcases List.mem_cons.mp hz with hz | hz
          · subst hz; exact le_of_lt h
          · exact listMin_le hz
        cases j with
        | zero => simpa [hmin] using h
        | succ j =>
          rw [List.getD_cons_succ, hmin]
          exact ih (Nat.lt_of_succ_lt_succ hj)
      · rw [if_neg h] at hj
        exact absurd hj (Nat.not_lt_zero j)

/-! ### Termination and fuel irrelevance of the sweep loops -/

theorem alive_iff {state : List (List Itv)} :
    alive state = true ↔ ∀ l ∈ state, l ≠ [] := by
  simp [alive, List.isEmpty_iff]

theorem sweepLoop_of_not_alive {state : List (List Itv)} {acc : List Itv}
    (h : alive state = false) : ∀ fuel, sweepLoop fuel state acc = some acc := by
  intro fuel
  cases fuel with
  | zero => simp [sweepLoop, h]
  | succ f => simp [sweepLoop, h]

theorem specSweepLoop_of_not_alive {state : List (List Itv)} {acc : List Itv}
    (h : alive state = false) : ∀ fuel, specSweepLoop fuel state acc = some acc := by
  intro fuel
  cases fuel with
  | zero => simp [specSweepLoop, h]
  | succ f => simp [specSweepLoop, h]

theorem length_le_totalLen {state : List (List Itv)} (h : ∀ l ∈ state, l ≠ []) :
    state.length ≤ totalLen state := by
  induction state with
  | nil => simp [totalLen]
  | cons l ls ih =>
    have hl : l ≠ [] := h l (List.mem_cons_self _ _)
    have h1 : 0 < l.length := List.length_pos.mpr hl
    have h2 := ih (fun x hx => h x (List.mem_cons_of_mem _ hx))
    simp only [totalLen, List.map_cons, List.sum_cons, List.length_cons] at h2 ⊢
    omega

theorem totalLen_set : ∀ (state : List (List Itv)) (v : List Itv) (k : Nat),
    k < state.length →
    totalLen (state.set k v) + (state.getD k []).length = totalLen state + v.length := by
  intro state
  induction state with
  | nil => intro v k hk; simp at hk
  | cons l ls ih =>
    intro v k hk
    cases k with
    | zero =>
      simp only [List.set_cons_zero, totalLen, List.map_cons, List.sum_cons,
        List.getD_cons_zero]
      omega
    | succ k =>
      have hk2 : k < ls.length := by simpa using hk
      have h2 := ih v k hk2
      simp only [List.set_cons_succ, totalLen, List.map_cons, List.sum_cons,
        List.getD_cons_succ] at h2 ⊢
      omega

theorem getD_mem : ∀ (state : List (List Itv)) (k : Nat), k < state.length →
    state.getD k [] ∈ state := by
  intro state
  induction state with
  | nil => intro k hk; simp at hk
  | cons l ls ih =>
    intro k hk
    cases k with
    | zero => simp
    | succ k =>
      have hk2 : k < ls.length := by simpa using hk
      simpa using List.mem_cons_of_mem l (ih k hk2)

theorem endsOf_ne_nil {state : List (List Itv)} (hne : state ≠ []) :
    endsOf state ≠ [] := by
  simp [endsOf, headsOf, hne]

theorem argminFirst_endsOf_lt {state : List (List Itv)} (hne : state ≠ []) :
    argminFirst (endsOf state) < state.length := by
  have h := argminFirst_lt_length (endsOf_ne_nil hne)
  simpa [endsOf, headsOf] using h

theorem codeStep_length (state : List (List Itv)) :
    (codeStep state).length = state.length := by
  simp [codeStep]

theorem specStep_length (state : List (List Itv)) :
    (specStep state).length = state.length := by
  simp [specStep]

theorem codeStep_totalLen {state : List (List Itv)} (hne : state ≠ [])
    (ha : alive state = true) : totalLen (codeStep state) + 1 = totalLen state := by
  have hk : argminFirst (endsOf state) < state.length := argminFirst_endsOf_lt hne
  have hmem := getD_mem state _ hk
  have hnonempty : state.getD (argminFirst (endsOf state)) [] ≠ [] :=
    (alive_iff.mp ha) _ hmem
  have hset := totalLen_set state ((state.getD (argminFirst (endsOf state)) []).tail) _ hk
  have htail : ((state.getD (argminFirst (endsOf state)) []).tail).length + 1 =
      (state.getD (argminFirst (endsOf state)) []).length := by
    cases hcase : state.getD (argminFirst (endsOf state)) [] with
    | nil => exact absurd hcase hnonempty
    | cons a as => simp
  unfold codeStep
  omega

theorem specStep_totalLen_lt {state : List (List Itv)} (hne : state ≠ [])
    (ha : alive state = true) : totalLen (specStep state) < totalLen state := by
  have h1 : totalLen (specStep state) =
      (state.map (fun l =>
        (if (l.headD (0, 0)).2 = hiOf state then l.tail else l).length)).sum := by
    simp only [totalLen, specStep, List.map_map]
    rfl
  have h2 : totalLen state = (state.map (fun l => l.length)).sum := rfl
  rw [h1, h2]
  refine List.sum_lt_sum _ _ ?_ ?_
  · intro l _
    by_cases h : (l.headD (0, 0)).2 = hiOf state
    · rw [if_pos h]
      simp only [List.length_tail]
      exact Nat.sub_le l.length 1
    · rw [if_neg h]
  · have hmem : hiOf state ∈ (headsOf state).map Prod.snd := listMin_mem (endsOf_ne_nil hne)
    rw [headsOf, List.map_map] at hmem
    rcases List.mem_map.mp hmem with ⟨l, hl, hend⟩
    refine ⟨l, hl, ?_⟩
    have hlne : l ≠ [] := alive_iff.mp ha l hl
    have hend2 : (l.headD (0, 0)).2 = hiOf state := hend
    rw [if_pos hend2]
    cases l with
    | nil => exact absurd rfl hlne
    | cons a as => simp

theorem sweepLoop_congr : ∀ (n : Nat) (state : List (List Itv)) (acc : List Itv)
    (f g : Nat), totalLen state = n → state ≠ [] → n ≤ f → n ≤ g →
    sweepLoop f state acc = sweepLoop g state acc := by
  intro n
  induction n using Nat.strong_induction_on with
  | _ n ih =>
    intro state acc f g hn hne hf hg
    cases ha : alive state with
    | false => rw [sweepLoop_of_not_alive ha, sweepLoop_of_not_alive ha]
    | true =>
      have hlen : state.length ≤ totalLen state := length_le_totalLen (alive_iff.mp ha)
      have hlpos : 0 < state.length := List.length_pos.mpr hne
      have hstep := codeStep_totalLen hne ha
      cases f with
      | zero => omega
      | succ f2 =>
        cases g with
        | zero => omega
        | succ g2 =>
          simp only [sweepLoop, ha, if_true]
          have hcne : codeStep state ≠ [] := by
            have := codeStep_length state
            intro hc
            rw [hc] at this
            simp at this
            omega
          exact ih (n - 1) (by omega) (codeStep state) _ f2 g2 (by omega) hcne
            (by omega) (by omega)

theorem sweepLoop_isSome : ∀ (n : Nat) (state : List (List Itv)) (acc : List Itv)
    (f : Nat), totalLen state = n → state ≠ [] → n ≤ f →
    ∃ r, sweepLoop f state acc = some r := by
  intro n
  induction n using Nat.strong_induction_on with
  | _ n ih =>
    intro state acc f hn hne hf
    cases ha : alive state with
    | false => exact ⟨acc, sweepLoop_of_not_alive ha f⟩
    | true =>
      have hlen : state.length ≤ totalLen state := length_le_totalLen (alive_iff.mp ha)
      have hlpos : 0 < state.length := List.length_pos.mpr hne
      have hstep := codeStep_totalLen hne ha
      cases f with
      | zero => omega
      | succ f2 =>
        simp only [sweepLoop, ha, if_true]
        have hcne : codeStep state ≠ [] := by
          have := codeStep_length state
          intro hc
          rw [hc] at this
          simp at this
          omega
        exact ih (n - 1) (by omega) (codeStep state) _ f2 (by omega) hcne (by omega)

theorem specSweepLoop_congr : ∀ (n : Nat) (state : List (List Itv)) (acc : List Itv)
    (f g : Nat), totalLen state = n → state ≠ [] → n ≤ f → n ≤ g →
    specSweepLoop f state acc = specSweepLoop g state acc := by
  intro n
  induction n using Nat.strong_induction_on with
  | _ n ih =>
    intro state acc f g hn hne hf hg
    cases ha : alive state with
    | false => rw [specSweepLoop_of_not_alive ha, specSweepLoop_of_not_alive ha]
    | true =>
      have hlen : state.length ≤ totalLen state := length_le_totalLen (alive_iff.mp ha)
      have hlpos : 0 < state.length := List.length_pos.mpr hne
      have hstep := specStep_totalLen_lt hne ha
      cases f with
      | zero => omega
      | succ f2 =>
        cases g with
        | zero => omega
        | succ g2 =>
          simp only [specSweepLoop, ha, if_true]
          have hcne : specStep state ≠ [] := by
            have := specStep_length state
            intro hc
            rw [hc] at this
            simp at this
            omega
          exact ih (totalLen (specStep state)) (by omega) (specStep state) _ f2 g2 rfl
            hcne (by omega) (by omega)

theorem specSweepLoop_isSome : ∀ (n : Nat) (state : List (List Itv)) (acc : List Itv)
    (f : Nat), totalLen state = n → state ≠ [] → n ≤ f →
    ∃ r, specSweepLoop f state acc = some r := by
  intro n
  induction n using Nat.strong_induction_on with
  | _ n ih =>
    intro state acc f hn hne hf
    cases ha : alive state with
    | false => exact ⟨acc, specSweepLoop_of_not_alive ha f⟩
    | true =>
      have hlen : state.length ≤ totalLen state := length_le_totalLen (alive_iff.mp ha)
      have hlpos : 0 < state.length := List.length_pos.mpr hne
      have hstep := specStep_totalLen_lt hne ha
      cases f with
      | zero => omega
      | succ f2 =>
        simp only [specSweepLoop, ha, if_true]
        have hcne : specStep state ≠ [] := by
          have := specStep_length state
          intro hc
          rw [hc] at this
          simp at this
          omega
        exact ih (totalLen (specStep state)) (by omega) (specStep state) _ f2 rfl hcne
          (by omega)

/-! ### Generic `getD` helpers -/

theorem getD_mem_of_lt {α : Type} (d : α) : ∀ (l : List α) (i : Nat), i < l.length →
    l.getD i d ∈ l := by
  intro l
  induction l with
  | nil => intro i hi; simp at hi
  | cons x xs ih =>
    intro i hi
    cases i with
    | zero => simp
    | succ i =>
      have hi2 : i < xs.length := by simpa using hi
      simpa using List.mem_cons_of_mem x (ih i hi2)

theorem exists_getD_of_mem {α : Type} (d : α) : ∀ (l : List α) (x : α), x ∈ l →
    ∃ i, i < l.length ∧ l.getD i d = x := by
  intro l
  induction l with
  | nil => intro x hx; cases hx
  | cons y ys ih =>
    intro x hx
    rcases List.mem_cons.mp hx with h | h
    · exact ⟨0, by simp, by simp [h.symm]⟩
    · rcases ih x h with ⟨i, hi, hgd⟩
      exact ⟨i + 1, by simpa using hi, by simpa using hgd⟩

theorem map_getD {α β : Type} (f : α → β) (d : α) : ∀ (l : List α) (i : Nat),
    i < l.length → (l.map f).getD i (f d) = f (l.getD i d) := by
  intro l
  induction l with
  | nil => intro i hi; simp at hi
  | cons x xs ih =>
    intro i hi
    cases i with
    | zero => simp
    | succ i =>
      have hi2 : i < xs.length := by simpa using hi
      simp only [List.map_cons, List.getD_cons_succ]
      exact ih i hi2

theorem getD_set_self {α : Type} (d : α) : ∀ (l : List α) (k : Nat) (v : α),
    k < l.length → (l.set k v).getD k d = v := by
  intro l
  induction l with
  | nil => intro k v hk; simp at hk
  | cons x xs ih =>
    intro k v hk
    cases k with
    | zero => simp
    | succ k =>
      have hk2 : k < xs.length := by simpa using hk
      simpa using ih k v hk2

theorem getD_set_ne {α : Type} (d : α) : ∀ (l : List α) (k : Nat) (v : α) (i : Nat),
    i ≠ k → (l.set k v).getD i d = l.getD i d := by
  intro l
  induction l with
  | nil => intro k v i _; simp
  | cons x xs ih =>
    intro k v i hik
    cases k with
    | zero =>
      cases i with
      | zero => exact absurd rfl hik
      | succ i => simp
    | succ k =>
      cases i with
      | zero => simp
      | succ i =>
        have : i ≠ k := fun h => hik (by rw [h])
        simpa using ih k v i this

theorem ext_getD {α : Type} (d : α) : ∀ (l₁ l₂ : List α), l₁.length = l₂.length →
    (∀ i, i < l₁.length → l₁.getD i d = l₂.getD i d) → l₁ = l₂ := by
  intro l₁
  induction l₁ with
  | nil =>
    intro l₂ hlen _
    cases l₂ with
    | nil => rfl
    | cons y ys => simp at hlen
  | cons x xs ih =>
    intro l₂ hlen hall
    cases l₂ with
    | nil => simp at hlen
    | cons y ys =>
      have hx : x = y := by simpa using hall 0 (by simp)
      have hxs : xs = ys := by
        refine ih ys (by simpa using hlen) ?_
        intro i hi
        simpa using hall (i + 1) (by simpa using hi)
      rw [hx, hxs]

theorem getD_of_length_le {α : Type} (d : α) : ∀ (l : List α) (i : Nat),
    l.length ≤ i → l.getD i d = d := by
  intro l
  induction l with
  | nil => intro i _; simp
  | cons x xs ih =>
    intro i hi
    cases i with
    | zero => simp at hi
    | succ i => simpa using ih i (by simpa using hi)

theorem Inv_codeStep {state : List (List Itv)} (hInv : Inv state) :
    Inv (codeStep state) := by
  intro l hl
  rcases List.mem_or_eq_of_mem_set hl with h | h
  · exact hInv l h
  · subst h
    by_cases hk : argminFirst (endsOf state) < state.length
    · rcases hInv _ (getD_mem state _ hk) with ⟨hs, hw⟩
      exact ⟨hs.tail, fun p hp => hw p (List.mem_of_mem_tail hp)⟩
    · rw [getD_of_length_le [] state _ (le_of_not_lt hk)]
      exact ⟨List.chain'_nil, fun p hp => absurd hp (List.not_mem_nil p)⟩

theorem Inv_specStep {state : List (List Itv)} (hInv : Inv state) :
    Inv (specStep state) := by
  intro l hl
  rcases List.mem_map.mp hl with ⟨m, hm, he⟩
  rcases hInv m hm with ⟨hs, hw⟩
  by_cases h : (m.headD (0, 0)).2 = hiOf state
  · rw [if_pos h] at he
    subst he
    exact ⟨hs.tail, fun p hp => hw p (List.mem_of_mem_tail hp)⟩
  · rw [if_neg h] at he
    subst he
    exact ⟨hs, hw⟩

/-! ### Pointwise descriptions of the sweep state -/

theorem endsOf_eq_map (state : List (List Itv)) :
    endsOf state = state.map (fun l => (l.headD (0, 0)).2) := by
  rw [endsOf, headsOf, List.map_map]
  rfl

theorem startsOf_eq_map (state : List (List Itv)) :
    startsOf state = state.map (fun l => (l.headD (0, 0)).1) := by
  rw [startsOf, headsOf, List.map_map]
  rfl

theorem endsOf_length (state : List (List Itv)) :
    (endsOf state).length = state.length := by
  simp [endsOf, headsOf]

theorem startsOf_length (state : List (List Itv)) :
    (startsOf state).length = state.length := by
  simp [startsOf, headsOf]

theorem endsOf_getD {state : List (List Itv)} {i : Nat} (h : i < state.length) :
    (endsOf state).getD i 0 = ((state.getD i []).headD (0, 0)).2 := by
  rw [endsOf_eq_map]
  simpa using map_getD (fun l : List Itv => (l.headD (0, 0)).2) [] state i h

theorem startsOf_getD {state : List (List Itv)} {i : Nat} (h : i < state.length) :
    (startsOf state).getD i 0 = ((state.getD i []).headD (0, 0)).1 := by
  rw [startsOf_eq_map]
  simpa using map_getD (fun l : List Itv => (l.headD (0, 0)).1) [] state i h

theorem specStep_getD {state : List (List Itv)} {i : Nat} (h : i < state.length) :
    (specStep state).getD i [] =
      if ((state.getD i []).headD (0, 0)).2 = hiOf state
      then (state.getD i []).tail else state.getD i [] := by
  rw [specStep]
  have := map_getD
    (fun l : List Itv => if (l.headD (0, 0)).2 = hiOf state then l.tail else l)
    [] state i h
  simpa [ite_self] using this

theorem headend_argmin {state : List (List Itv)} (hne : state ≠ []) :
    ((state.getD (argminFirst (endsOf state)) []).headD (0, 0)).2 = hiOf state := by
  have hk : argminFirst (endsOf state) < state.length := argminFirst_endsOf_lt hne
  have h1 := endsOf_getD hk
  have h2 : (endsOf state).getD (argminFirst (endsOf state)) 0 = listMin (endsOf state) :=
    argminFirst_getD (endsOf_ne_nil hne)
  rw [← h1, h2]
  rfl

theorem alive_eq_false_of_mem {state : List (List Itv)} (h : ([] : List Itv) ∈ state) :
    alive state = false := by
  cases ha : alive state with
  | false => rfl
  | true => exact absurd rfl (alive_iff.mp ha [] h)

/-! ### One code step versus one spec step -/

theorem codeStep_eq_specStep_of_unique_tie {state : List (List Itv)} (hne : state ≠ [])
    (hTie : ∀ j, j < state.length → j ≠ argminFirst (endsOf state) →
      (endsOf state).getD j 0 ≠ hiOf state) :
    codeStep state = specStep state := by
  have hk : argminFirst (endsOf state) < state.length := argminFirst_endsOf_lt hne
  refine ext_getD [] _ _ (by rw [codeStep_length, specStep_length]) ?_
  intro i hi
  rw [codeStep_length] at hi
  by_cases hik : i = argminFirst (endsOf state)
  · subst hik
    rw [codeStep, getD_set_self [] state _ _ hk, specStep_getD hi,
      if_pos (headend_argmin hne)]
  · have hno : ((state.getD i []).headD (0, 0)).2 ≠ hiOf state := by
      intro hcontra
      exact hTie i hi hik (by rw [endsOf_getD hi]; exact hcontra)
    rw [codeStep, getD_set_ne [] state _ _ i hik, specStep_getD hi, if_neg hno]

theorem argmin_tail_head {state : List (List Itv)} (hne : state ≠ [])
    (ha : alive state = true) (hInv : Inv state)
    (htl : (state.getD (argminFirst (endsOf state)) []).tail ≠ []) :
    hiOf state < (((state.getD (argminFirst (endsOf state)) []).tail).headD (0, 0)).1 ∧
    (((state.getD (argminFirst (endsOf state)) []).tail).headD (0, 0)).1 ≤
      (((state.getD (argminFirst (endsOf state)) []).tail).headD (0, 0)).2 := by
  have hk : argminFirst (endsOf state) < state.length := argminFirst_endsOf_lt hne
  have hmem := getD_mem state _ hk
  rcases hInv _ hmem with ⟨hs, hw⟩
  have hlk : state.getD (argminFirst (endsOf state)) [] ≠ [] := alive_iff.mp ha _ hmem
  have hhead := headend_argmin hne
  rw [SortedDisjoint] at hs
  cases hcase : state.getD (argminFirst (endsOf state)) [] with
  | nil => exact absurd hcase hlk
  | cons p tl =>
    cases tl with
    | nil => rw [hcase] at htl; simp at htl
    | cons q rest =>
      rw [hcase] at hs hw hhead
      simp only [List.headD_cons] at hhead
      have hpq : p.2 < q.1 := (List.chain'_cons.mp hs).1
      have hq : q.1 ≤ q.2 := hw q (List.mem_cons_of_mem p (List.mem_cons_self q rest))
      constructor
      · simp only [List.tail_cons, List.headD_cons]
        omega
      · simp only [List.tail_cons, List.headD_cons]
        omega

theorem alive_codeStep {state : List (List Itv)} (ha : alive state = true)
    (htl : (state.getD (argminFirst (endsOf state)) []).tail ≠ []) :
    alive (codeStep state) = true := by
  refine alive_iff.mpr ?_
  intro l hl
  rcases List.mem_or_eq_of_mem_set hl with h | h
  · exact alive_iff.mp ha l h
  · subst h; exact htl

theorem hiOf_codeStep_of_tie {state : List (List Itv)} (hne : state ≠ [])
    (ha : alive state = true) (hInv : Inv state)
    (htl : (state.getD (argminFirst (endsOf state)) []).tail ≠ [])
    {j : Nat} (hj : j < state.length) (hjk : j ≠ argminFirst (endsOf state))
    (hje : (endsOf state).getD j 0 = hiOf state) :
    hiOf (codeStep state) = hiOf state := by
  have hk : argminFirst (endsOf state) < state.length := argminFirst_endsOf_lt hne
  have hlen2 : (codeStep state).length = state.length := codeStep_length state
  have hmem : hiOf state ∈ endsOf (codeStep state) := by
    have h1 : (endsOf (codeStep state)).getD j 0 = hiOf state := by
      rw [endsOf_getD (by rw [hlen2]; exact hj), codeStep,
        getD_set_ne [] state _ _ j hjk, ← endsOf_getD hj]
      exact hje
    have h2 : j < (endsOf (codeStep state)).length := by
      rw [endsOf_length, hlen2]; exact hj
    rw [← h1]
    exact getD_mem_of_lt 0 _ j h2
  refine listMin_eq_of hmem ?_
  intro x hx
  rcases exists_getD_of_mem 0 _ x hx with ⟨i, hi, hgd⟩
  rw [endsOf_length, hlen2] at hi
  by_cases hik : i = argminFirst (endsOf state)
  · subst hik
    rw [endsOf_getD (by rw [hlen2]; exact hi), codeStep,
      getD_set_self [] state _ _ hk] at hgd
    rcases argmin_tail_head hne ha hInv htl with ⟨h1, h2⟩
    omega
  · rw [endsOf_getD (by rw [hlen2]; exact hi), codeStep,
      getD_set_ne [] state _ _ i hik, ← endsOf_getD hi] at hgd
    rw [← hgd]
    exact listMin_le (getD_mem_of_lt 0 _ i (by rw [endsOf_length]; exact hi))

theorem emitOf_codeStep_of_tie {state : List (List Itv)} (hne : state ≠ [])
    (ha : alive state = true) (hInv : Inv state)
    (htl : (state.getD (argminFirst (endsOf state)) []).tail ≠ [])
    {j : Nat} (hj : j < state.length) (hjk : j ≠ argminFirst (endsOf state))
    (hje : (endsOf state).getD j 0 = hiOf state) :
    emitOf (codeStep state) = [] := by
  have hk : argminFirst (endsOf state) < state.length := argminFirst_endsOf_lt hne
  have hlen2 : (codeStep state).length = state.length := codeStep_length state
  have hs2 : (startsOf (codeStep state)).getD (argminFirst (endsOf state)) 0 =
      (((state.getD (argminFirst (endsOf state)) []).tail).headD (0, 0)).1 := by
    rw [startsOf_getD (by rw [hlen2]; exact hk), codeStep, getD_set_self [] state _ _ hk]
  have hmem : (((state.getD (argminFirst (endsOf state)) []).tail).headD (0, 0)).1 ∈
      startsOf (codeStep state) := by
    rw [← hs2]
    exact getD_mem_of_lt 0 _ _ (by rw [startsOf_length, hlen2]; exact hk)
  have hlo := le_listMax hmem
  rcases argmin_tail_head hne ha hInv htl with ⟨h1, _⟩
  have hhi := hiOf_codeStep_of_tie hne ha hInv htl hj hjk hje
  have hcond : ¬ (loOf (codeStep state) < hiOf (codeStep state)) := by
    rw [hhi]
    have : hiOf state < loOf (codeStep state) := lt_of_lt_of_le h1 hlo
    omega
  unfold emitOf
  rw [if_neg hcond]

theorem specStep_codeStep_of_tie {state : List (List Itv)} (hne : state ≠ [])
    (ha : alive state = true) (hInv : Inv state)
    (htl : (state.getD (argminFirst (endsOf state)) []).tail ≠ [])
    {j : Nat} (hj : j < state.length) (hjk : j ≠ argminFirst (endsOf state))
    (hje : (endsOf state).getD j 0 = hiOf state) :
    specStep (codeStep state) = specStep state := by
  have hk : argminFirst (endsOf state) < state.length := argminFirst_endsOf_lt hne
  have hlen2 : (codeStep state).length = state.length := codeStep_length state
  have hhi := hiOf_codeStep_of_tie hne ha hInv htl hj hjk hje
  refine ext_getD [] _ _ (by rw [specStep_length, codeStep_length, specStep_length]) ?_
  intro i hi
  rw [specStep_length, codeStep_length] at hi
  rw [specStep_getD (show i < (codeStep state).length by rw [hlen2]; exact hi),
    specStep_getD hi, hhi]
  by_cases hik : i = argminFirst (endsOf state)
  · subst hik
    rw [codeStep, getD_set_self [] state _ _ hk]
    rcases argmin_tail_head hne ha hInv htl with ⟨h1, h2⟩
    rw [if_neg (by omega), if_pos (headend_argmin hne)]
  · rw [codeStep, getD_set_ne [] state _ _ i hik]

/-! ### The sweep in the source equals the all-tied-cursors sweep of §4.2 -/

theorem sweepLoop_eq_specSweepLoop : ∀ (n : Nat) (state : List (List Itv))
    (acc : List Itv) (f g : Nat), totalLen state = n → state ≠ [] → Inv state →
    n ≤ f → n ≤ g → sweepLoop f state acc = specSweepLoop g state acc := by
  intro n
  induction n using Nat.strong_induction_on with
  | _ n ih =>
    intro state acc f g hn hne hInv hf hg
    cases ha : alive state with
    | false => rw [sweepLoop_of_not_alive ha, specSweepLoop_of_not_alive ha]
    | true =>
      have hlen : state.length ≤ totalLen state := length_le_totalLen (alive_iff.mp ha)
      have hlpos : 0 < state.length := List.length_pos.mpr hne
      have hstep := codeStep_totalLen hne ha
      have hk : argminFirst (endsOf state) < state.length := argminFirst_endsOf_lt hne
      cases f with
      | zero => omega
      | succ f2 =>
        cases g with
        | zero => omega
        | succ g2 =>
          simp only [sweepLoop, specSweepLoop, ha, if_true]
          have hcl := codeStep_length state
          have hsl := specStep_length state
          have hcne : codeStep state ≠ [] := by
            intro hc; rw [hc] at hcl; simp at hcl; omega
          have hsne : specStep state ≠ [] := by
            intro hc; rw [hc] at hsl; simp at hsl; omega
          have hmain : sweepLoop f2 (codeStep state) (acc ++ emitOf state) =
              specSweepLoop f2 (codeStep state) (acc ++ emitOf state) :=
            ih (n - 1) (by omega) _ _ f2 f2 (by omega) hcne (Inv_codeStep hInv)
              (by omega) (by omega)
          rw [hmain]
          by_cases hTie : ∀ j, j < state.length → j ≠ argminFirst (endsOf state) →
              (endsOf state).getD j 0 ≠ hiOf state
          · rw [codeStep_eq_specStep_of_unique_tie hne hTie]
            have hlt := specStep_totalLen_lt hne ha
            exact specSweepLoop_congr (totalLen (specStep state)) _ _ f2 g2 rfl hsne
              (by omega) (by omega)
          · push_neg at hTie
            rcases hTie with ⟨j, hj, hjk, hje⟩
            by_cases htl : (state.getD (argminFirst (endsOf state)) []).tail = []
            · have hdead1 : alive (codeStep state) = false := by
                have heq : (codeStep state).getD (argminFirst (endsOf state)) [] =
                    (state.getD (argminFirst (endsOf state)) []).tail := by
                  rw [codeStep, getD_set_self [] state _ _ hk]
                have hmem2 := getD_mem (codeStep state) (argminFirst (endsOf state))
                  (by rw [codeStep_length]; exact hk)
                rw [heq, htl] at hmem2
                exact alive_eq_false_of_mem hmem2
              have hdead2 : alive (specStep state) = false := by
                have h3 := specStep_getD hk
                rw [if_pos (headend_argmin hne), htl] at h3
                have hmem2 := getD_mem (specStep state) (argminFirst (endsOf state))
                  (by rw [specStep_length]; exact hk)
                rw [h3] at hmem2
                exact alive_eq_false_of_mem hmem2
              rw [specSweepLoop_of_not_alive hdead1, specSweepLoop_of_not_alive hdead2]
            · have ha2 : alive (codeStep state) = true := alive_codeStep ha htl
              have hemit : emitOf (codeStep state) = [] :=
                emitOf_codeStep_of_tie hne ha hInv htl hj hjk hje
              have hspecs : specStep (codeStep state) = specStep state :=
                specStep_codeStep_of_tie hne ha hInv htl hj hjk hje
              have hlen2 : (codeStep state).length ≤ totalLen (codeStep state) :=
                length_le_totalLen (alive_iff.mp ha2)
              cases f2 with
              | zero => omega
              | succ f3 =>
                simp only [specSweepLoop, ha2, if_true]
                rw [hemit, List.append_nil, hspecs]
                have hlt2 : totalLen (specStep state) < totalLen (codeStep state) := by
                  rw [← hspecs]
                  exact specStep_totalLen_lt hcne ha2
                exact specSweepLoop_congr (totalLen (specStep state)) _ _ f3 g2 rfl hsne
                  (by omega) (by omega)

theorem interval_intersection_eq_specModel (ivs : List (List Itv)) (h2 : 2 ≤ ivs.length)
    (hInv : Inv ivs) : interval_intersection ivs = interval_intersection_specModel ivs := by
  have hne : ivs ≠ [] := by
    intro h
    subst h
    simp at h2
  have heq := sweepLoop_eq_specSweepLoop (totalLen ivs) ivs [] (totalLen ivs)
    (totalLen ivs) rfl hne hInv le_rfl le_rfl
  unfold interval_intersection interval_intersection_specModel
  rw [heq]

/-! ### Permutation invariance of the spec-side sweep -/

theorem alive_perm {s₁ s₂ : List (List Itv)} (h : s₁.Perm s₂) : alive s₁ = alive s₂ := by
  cases ha : alive s₂ with
  | true => exact alive_iff.mpr (fun l hl => alive_iff.mp ha l (h.mem_iff.mp hl))
  | false =>
    cases hb : alive s₁ with
    | false => rfl
    | true =>
      have hall := alive_iff.mp hb
      have : alive s₂ = true := alive_iff.mpr (fun l hl => hall l (h.mem_iff.mpr hl))
      rw [ha] at this
      cases this

theorem hiOf_perm {s₁ s₂ : List (List Itv)} (h : s₁.Perm s₂) : hiOf s₁ = hiOf s₂ := by
  rw [hiOf, hiOf, endsOf_eq_map, endsOf_eq_map]
  exact listMin_perm (h.map _)

theorem loOf_perm {s₁ s₂ : List (List Itv)} (h : s₁.Perm s₂) : loOf s₁ = loOf s₂ := by
  rw [loOf, loOf, startsOf_eq_map, startsOf_eq_map]
  exact listMax_perm (h.map _)

theorem specSweepLoop_perm : ∀ (fuel : Nat) (s₁ s₂ : List (List Itv)) (acc : List Itv),
    s₁.Perm s₂ → specSweepLoop fuel s₁ acc = specSweepLoop fuel s₂ acc := by
  intro fuel
  induction fuel with
  | zero =>
    intro s₁ s₂ acc h
    simp [specSweepLoop, alive_perm h]
  | succ f ih =>
    intro s₁ s₂ acc h
    have hal := alive_perm h
    cases ha : alive s₂ with
    | false =>
      rw [specSweepLoop_of_not_alive (by rw [hal, ha]),
        specSweepLoop_of_not_alive ha]
    | true =>
      have hhi := hiOf_perm h
      have hemit : emitOf s₁ = emitOf s₂ := by
        unfold emitOf
        rw [hhi, loOf_perm h]
      have hstep : (specStep s₁).Perm (specStep s₂) := by
        unfold specStep
        rw [hhi]
        exact h.map _
      simp only [specSweepLoop, hal, ha, if_true]
      rw [hemit]
      exact ih _ _ _ hstep

theorem totalLen_perm {s₁ s₂ : List (List Itv)} (h : s₁.Perm s₂) :
    totalLen s₁ = totalLen s₂ :=
  (h.map _).sum_eq

theorem specModel_perm {ivs₁ ivs₂ : List (List Itv)} (hperm : ivs₁.Perm ivs₂)
    (h2 : 2 ≤ ivs₁.length) :
    interval_intersection_specModel ivs₁ = interval_intersection_specModel ivs₂ := by
  have hlen := hperm.length_eq
  have e1 : interval_intersection_specModel ivs₁ =
      match specSweepLoop (totalLen ivs₁) ivs₁ [] with
      | some r => Except.ok r
      | none => Except.error () := by
    unfold interval_intersection_specModel
    rw [if_neg (by omega), if_neg (by omega)]
  have e2 : interval_intersection_specModel ivs₂ =
      match specSweepLoop (totalLen ivs₂) ivs₂ [] with
      | some r => Except.ok r
      | none => Except.error () := by
    unfold interval_intersection_specModel
    rw [if_neg (by omega), if_neg (by omega)]
  rw [e1, e2, totalLen_perm hperm, specSweepLoop_perm _ _ _ _ hperm]

/-! ### Claim theorems about `interval_intersection` -/

/-- Claim C1: for every input of two or more per-device interval lists, each
sorted and pairwise disjoint (with well-formed intervals),
`interval_intersection` follows the §4.2 sweep — lo as max of current
starts, hi as min of current ends, emit `[lo, hi]` iff `lo < hi`, advance
the smallest-end cursor(s) with ties advancing all tied cursors, stop when
any cursor exhausts its list — and in particular on
A = `[[0,100]]`, B = `[[0,40],[60,100]]`, C = `[[10,90]]` it returns
`[[10,40],[60,90]]`. -/
theorem claim_C1_follows_spec_sweep (ivs : List (List Itv)) (h2 : 2 ≤ ivs.length)
    (hInv : Inv ivs) :
    interval_intersection ivs = interval_intersection_specModel ivs ∧
    interval_intersection [[(0, 100)], [(0, 40), (60, 100)], [(10, 90)]] =
      Except.ok [(10, 40), (60, 90)] :=
  ⟨interval_intersection_eq_specModel ivs h2 hInv, rfl⟩

theorem claim_C1_follows_spec_sweep_witness :
    (2 ≤ ([[(0, 100)], [(0, 40), (60, 100)], [(10, 90)]] : List (List Itv)).length) ∧
    Inv [[(0, 100)], [(0, 40), (60, 100)], [(10, 90)]] ∧
    interval_intersection [[(0, 100)], [(0, 40), (60, 100)], [(10, 90)]] =
      interval_intersection_specModel [[(0, 100)], [(0, 40), (60, 100)], [(10, 90)]] ∧
    interval_intersection [[(0, 100)], [(0, 40), (60, 100)], [(10, 90)]] =
      Except.ok [(10, 40), (60, 90)] :=
  ⟨by decide, by decide,
    (claim_C1_follows_spec_sweep [[(0, 100)], [(0, 40), (60, 100)], [(10, 90)]]
      (by decide) (by decide)).1,
    (claim_C1_follows_spec_sweep [[(0, 100)], [(0, 40), (60, 100)], [(10, 90)]]
      (by decide) (by decide)).2⟩

/-- Claim C7: `interval_intersection` raises the empty-input `ValueError`
exactly when given zero interval lists, and returns a single input list
unchanged. -/
theorem claim_C7_empty_error_singleton_id (ivs : List (List Itv)) :
    ((interval_intersection ivs = Except.error ()) ↔ ivs = []) ∧
    (∀ l : List Itv, interval_intersection [l] = Except.ok l) := by
  constructor
  · constructor
    · intro herr
      cases ivs with
      | nil => rfl
      | cons a t =>
        exfalso
        cases t with
        | nil => simp [interval_intersection] at herr
        | cons b t2 =>
          have hne : (a :: b :: t2) ≠ ([] : List (List Itv)) := by simp
          rcases sweepLoop_isSome (totalLen (a :: b :: t2)) _ [] _ rfl hne le_rfl
            with ⟨r, hr⟩
          simp only [interval_intersection] at herr
          rw [if_neg (by simp only [List.length_cons]; omega),
            if_neg (by simp only [List.length_cons]; omega), hr] at herr
          simp at herr
    · intro h
      subst h
      rfl
  · intro l
    rfl

/-- Claim C8: on two or more sorted, pairwise-disjoint (well-formed) device
lists, the intersection result is invariant under permuting the input
device lists. -/
theorem claim_C8_perm_invariant (ivs₁ ivs₂ : List (List Itv)) (hperm : ivs₁.Perm ivs₂)
    (h2 : 2 ≤ ivs₁.length) (hInv : Inv ivs₁) :
    interval_intersection ivs₁ = interval_intersection ivs₂ := by
  have hInv2 : Inv ivs₂ := fun l hl => hInv l (hperm.mem_iff.mpr hl)
  have h2b : 2 ≤ ivs₂.length := hperm.length_eq ▸ h2
  rw [interval_intersection_eq_specModel ivs₁ h2 hInv,
    interval_intersection_eq_specModel ivs₂ h2b hInv2]
  exact specModel_perm hperm h2

theorem claim_C8_perm_invariant_witness :
    ([[(0, 100)], [(0, 40), (60, 100)], [(10, 90)]] : List (List Itv)).Perm
      [[(10, 90)], [(0, 100)], [(0, 40), (60, 100)]] ∧
    interval_intersection [[(0, 100)], [(0, 40), (60, 100)], [(10, 90)]] =
      interval_intersection [[(10, 90)], [(0, 100)], [(0, 40), (60, 100)]] :=
  ⟨by decide, claim_C8_perm_invariant _ _ (by decide) (by decide) (by decide)⟩

/-- Claim C10: on two or more finite interval lists the sweep loop
terminates within `totalLen` (the sum of the input list lengths)
iterations: run with that much fuel it always exits through the loop
guard. -/
theorem claim_C10_sweep_terminates (ivs : List (List Itv)) (h2 : 2 ≤ ivs.length) :
    (sweepLoop (totalLen ivs) ivs []).isSome = true := by
  have hne : ivs ≠ [] := by
    intro h
    subst h
    simp at h2
  rcases sweepLoop_isSome (totalLen ivs) ivs [] _ rfl hne le_rfl with ⟨r, hr⟩
  rw [hr]
  rfl

theorem claim_C10_sweep_terminates_witness :
    (2 ≤ ([[(0, 100)], [(0, 40), (60, 100)], [(10, 90)]] : List (List Itv)).length) ∧
    (sweepLoop (totalLen [[(0, 100)], [(0, 40), (60, 100)], [(10, 90)]])
      [[(0, 100)], [(0, 40), (60, 100)], [(10, 90)]] []).isSome = true :=
  ⟨by decide, claim_C10_sweep_terminates _ (by decide)⟩

theorem getD_irrel {α : Type} (d₁ d₂ : α) : ∀ (l : List α) (i : Nat), i < l.length →
    l.getD i d₁ = l.getD i d₂ := by
  intro l
  induction l with
  | nil => intro i hi; simp at hi
  | cons x xs ih =>
    intro i hi
    cases i with
    | zero => simp
    | succ i =>
      have hi2 : i < xs.length := by simpa using hi
      simp only [List.getD_cons_succ]
      exact ih i hi2

theorem selectedIdx_lt (logged : Itv) {cands : List Itv} (hne : cands ≠ []) :
    selectedIdx logged cands < cands.length := by
  have hmne : cands.map (matchCost logged) ≠ [] := by
    simpa using hne
  have := argminFirst_lt_length hmne
  simpa [selectedIdx] using this

theorem selectedIdx_cost (logged : Itv) {cands : List Itv} (hne : cands ≠ []) :
    matchCost logged (cands.getD (selectedIdx logged cands) (0, 0)) =
      listMin (cands.map (matchCost logged)) := by
  have hk := selectedIdx_lt logged hne
  have hmne : cands.map (matchCost logged) ≠ [] := by simpa using hne
  have hkm : selectedIdx logged cands < (cands.map (matchCost logged)).length := by
    simpa using hk
  have h1 : (cands.map (matchCost logged)).getD (selectedIdx logged cands) 0 =
      listMin (cands.map (matchCost logged)) := argminFirst_getD hmne
  have h2 := map_getD (matchCost logged) (0, 0) cands (selectedIdx logged cands) hk
  have h3 := getD_irrel (matchCost logged (0, 0)) 0 (cands.map (matchCost logged))
    (selectedIdx logged cands) hkm
  rw [← h2, h3, h1]

/-- Claim C3 (amended): the matcher selects the candidate minimizing the
summed absolute start/end distance, ties resolving to the first candidate
encountered; the match for the role fails exactly when some per-component
difference of the selected candidate is at least (not strictly more than)
the 180-second tolerance. -/
theorem claim_C3_matcher (logged : Itv) (cands : List Itv) (hne : cands ≠ []) :
    selectedIdx logged cands < cands.length ∧
    (∀ c ∈ cands,
      matchCost logged (cands.getD (selectedIdx logged cands) (0, 0)) ≤
        matchCost logged c) ∧
    (∀ j, j < selectedIdx logged cands →
      matchCost logged (cands.getD (selectedIdx logged cands) (0, 0)) <
        matchCost logged (cands.getD j (0, 0))) ∧
    (find_data_file logged cands = none ↔
      180000 ≤ |(cands.getD (selectedIdx logged cands) (0, 0)).1 - logged.1| ∨
      180000 ≤ |(cands.getD (selectedIdx logged cands) (0, 0)).2 - logged.2|) := by
  have hk := selectedIdx_lt logged hne
  have hcost := selectedIdx_cost logged hne
  refine ⟨hk, ?_, ?_, ?_⟩
  · intro c hc
    rw [hcost]
    exact listMin_le (List.mem_map_of_mem _ hc)
  · intro j hj
    have hjlen : j < cands.length := lt_trans hj hk
    have hjm : j < (cands.map (matchCost logged)).length := by simpa using hjlen
    have := argminFirst_strict_before (l := cands.map (matchCost logged)) (j := j)
      (by simpa [selectedIdx] using hj)
    rw [hcost]
    have h2 := map_getD (matchCost logged) (0, 0) cands j hjlen
    have h3 : (cands.map (matchCost logged)).getD j 0 =
        (cands.map (matchCost logged)).getD j (matchCost logged (0, 0)) :=
      getD_irrel _ _ _ _ hjm
    rw [h3, h2] at this
    exact this
  · unfold find_data_file
    by_cases hcond :
        |(cands.getD (selectedIdx logged cands) (0, 0)).1 - logged.1| < 180000 ∧
        |(cands.getD (selectedIdx logged cands) (0, 0)).2 - logged.2| < 180000
    · rw [if_pos hcond]
      constructor
      · intro h
        cases h
      · intro h
        rcases h with h | h
        · exact absurd hcond.1 (by omega)
        · exact absurd hcond.2 (by omega)
    · rw [if_neg hcond]
      constructor
      · intro _
        rcases not_and_or.mp hcond with h | h
        · exact Or.inl (by omega)
        · exact Or.inr (by omega)
      · intro _
        rfl

theorem claim_C3_matcher_witness :
    (([((0 : Int), (100 : Int))] : List Itv) ≠ []) ∧
    (find_data_file (0, 0) [(0, 100)] = none ↔
      180000 ≤ |(([((0 : Int), (100 : Int))] : List Itv).getD
          (selectedIdx (0, 0) [(0, 100)]) (0, 0)).1 - 0| ∨
      180000 ≤ |(([((0 : Int), (100 : Int))] : List Itv).getD
          (selectedIdx (0, 0) [(0, 100)]) (0, 0)).2 - 0|) :=
  ⟨by decide, (claim_C3_matcher (0, 0) [(0, 100)] (by decide)).2.2.2⟩

/-- Claim C3 counterexample: with logged extent `(0, 0)` and the single
candidate `(0, 180000)` the selected candidate's per-component differences
are 0 s and exactly 180 s — no component exceeds the 180-second tolerance —
yet the source's `assert np.all(diff < 180)` fails the match. -/
theorem claim_C3_counterexample :
    find_data_file (0, 0) [(0, 180000)] = none ∧
    ¬ (180000 < |((0 : Int)) - 0| ∨ 180000 < |((180000 : Int)) - 0|) := by
  constructor
  · decide
  · decide

/-- Claim C4: for a sub-session `start ≤ end` and rate `r = hz/1000`
samples/ms with `hz` dividing 1000 (so `1/r` is the positive integer
`1000/hz`), the grid is `start, start + 1/r, ..., start + k/r` with
`k = ⌊(end-start)·r⌋`, hence exactly `⌊(end-start)·r⌋ + 1` points, and
every grid point is integer-valued. -/
theorem claim_C4_grid (hz : Nat) (startTs endTs : Int) (hhz : 0 < hz)
    (hdvd : 1000 % hz = 0) (hse : startTs ≤ endTs) :
    new_ts_grid ((hz : ℚ) / 1000) startTs endTs =
      (List.range
          (Int.toNat (Int.floor ((endTs - startTs : ℚ) * ((hz : ℚ) / 1000))) + 1)).map
        (fun i : Nat => (startTs : ℚ) + (i : ℚ) * (1 / ((hz : ℚ) / 1000))) ∧
    ∀ q ∈ new_ts_grid ((hz : ℚ) / 1000) startTs endTs, ∃ z : Int, q = (z : ℚ) := by
  have hhzq : (0 : ℚ) < (hz : ℚ) := by exact_mod_cast hhz
  have hr0 : (0 : ℚ) < (hz : ℚ) / 1000 := by positivity
  have hes : (0 : ℚ) ≤ (endTs - startTs : ℚ) := by
    have : (startTs : ℚ) ≤ (endTs : ℚ) := by exact_mod_cast hse
    linarith
  have hk0 : 0 ≤ Int.floor ((endTs - startTs : ℚ) * ((hz : ℚ) / 1000)) :=
    Int.floor_nonneg.mpr (mul_nonneg hes (le_of_lt hr0))
  have hm : Int.floor ((endTs - startTs : ℚ) * ((hz : ℚ) / 1000) + 1) =
      Int.floor ((endTs - startTs : ℚ) * ((hz : ℚ) / 1000)) + 1 :=
    Int.floor_add_one _
  have htn : Int.toNat (Int.floor ((endTs - startTs : ℚ) * ((hz : ℚ) / 1000) + 1)) =
      Int.toNat (Int.floor ((endTs - startTs : ℚ) * ((hz : ℚ) / 1000))) + 1 := by
    omega
  have hinv : (1 : ℚ) / ((hz : ℚ) / 1000) = ((1000 / hz : Nat) : ℚ) := by
    rw [one_div_div]
    have h1000 : (hz : ℚ) * ((1000 / hz : Nat) : ℚ) = 1000 := by
      exact_mod_cast congrArg (fun n : Nat => (n : ℚ))
        (Nat.mul_div_cancel' (Nat.dvd_of_mod_eq_zero hdvd))
    field_simp
    linarith [h1000]
  constructor
  · unfold new_ts_grid
    rw [htn]
    refine List.map_congr_left ?_
    intro i _
    rw [div_eq_mul_inv, one_div]
    ring
  · intro q hq
    unfold new_ts_grid at hq
    rcases List.mem_map.mp hq with ⟨i, _, hqe⟩
    have hiq : (i : ℚ) / ((hz : ℚ) / 1000) = (i : ℚ) * ((1000 / hz : Nat) : ℚ) := by
      rw [div_eq_mul_inv, ← one_div, hinv]
    generalize hgen : (1000 / hz : Nat) = d at hiq
    refine ⟨startTs + (i : Int) * (d : Int), ?_⟩
    rw [← hqe, hiq]
    push_cast
    ring

theorem claim_C4_grid_witness :
    ((0 : Nat) < 50 ∧ 1000 % 50 = 0 ∧ (0 : Int) ≤ 100) ∧
    (new_ts_grid ((50 : ℚ) / 1000) 0 100 =
      (List.range
          (Int.toNat (Int.floor ((100 - 0 : ℚ) * ((50 : ℚ) / 1000))) + 1)).map
        (fun i : Nat => ((0 : Int) : ℚ) + (i : ℚ) * (1 / ((50 : ℚ) / 1000))) ∧
      ∀ q ∈ new_ts_grid ((50 : ℚ) / 1000) 0 100, ∃ z : Int, q = (z : ℚ)) := by
  refine ⟨⟨by norm_num, by norm_num, by norm_num⟩, ?_⟩
  have h := claim_C4_grid 50 0 100 (by norm_num) (by norm_num) (by norm_num)
  exact h

/-- Claim C9 counterexample: video extent `(0, 10000)` (duration 10 s) and
requested sub-session `(20000, 30000)` give `start_sec = 20`, which is not
clamped into `[0, duration] = [0, 10]`. -/
theorem claim_C9_counterexample :
    (camera_trim_times 0 10000 20000 30000).1 = 20 ∧
    ¬ ((camera_trim_times 0 10000 20000 30000).1 ≤
        ((10000 : ℚ) - 0) / 1000) := by
  constructor
  · norm_num [camera_trim_times]
  · norm_num [camera_trim_times]

/-- Claim C9 (amended): for every video extent and every requested
sub-session — including out-of-extent requests — the camera trim clamps
`start_sec` below at 0 and `end_sec` above at the video duration
(unconditionally: `start_sec ≥ 0` and `end_sec ≤ duration` always hold,
and the clamps bind exactly on out-of-extent requests: a request starting
at or before the video start gives `start_sec = 0`, a request ending at or
after the video end gives `end_sec = duration`); whenever the requested
sub-session lies inside the offset-corrected video extent, both computed
bounds moreover lie in `[0, duration]`. -/
theorem claim_C9_camera_clamp (videoStartTs videoEndTs startTs endTs : Int) :
    0 ≤ (camera_trim_times videoStartTs videoEndTs startTs endTs).1 ∧
    (camera_trim_times videoStartTs videoEndTs startTs endTs).2 ≤
      ((videoEndTs : ℚ) - (videoStartTs : ℚ)) / 1000 ∧
    (startTs ≤ videoStartTs →
      (camera_trim_times videoStartTs videoEndTs startTs endTs).1 = 0) ∧
    (videoEndTs ≤ endTs →
      (camera_trim_times videoStartTs videoEndTs startTs endTs).2 =
        ((videoEndTs : ℚ) - (videoStartTs : ℚ)) / 1000) ∧
    (videoStartTs ≤ startTs → startTs ≤ endTs → endTs ≤ videoEndTs →
      (camera_trim_times videoStartTs videoEndTs startTs endTs).1 ≤
        ((videoEndTs : ℚ) - (videoStartTs : ℚ)) / 1000 ∧
      0 ≤ (camera_trim_times videoStartTs videoEndTs startTs endTs).2) := by
  have hdur : ((videoEndTs : ℚ) - (videoStartTs : ℚ)) / 1000 =
      (videoEndTs : ℚ) / 1000 - (videoStartTs : ℚ) / 1000 := by
    ring
  unfold camera_trim_times
  refine ⟨le_max_right _ _, ?_, ?_, ?_, ?_⟩
  · -- the end bound never exceeds the duration, whatever the request
    rw [hdur]
    have hminle : min ((endTs : ℚ) / 1000) ((videoEndTs : ℚ) / 1000) ≤
        (videoEndTs : ℚ) / 1000 := min_le_right _ _
    simp only []
    linarith
  · -- the lower clamp binds when the request starts at or before the video
    intro h
    have c : (startTs : ℚ) ≤ (videoStartTs : ℚ) := by exact_mod_cast h
    have d : (startTs : ℚ) / 1000 ≤ (videoStartTs : ℚ) / 1000 := by
      apply div_le_div_of_nonneg_right c
      norm_num
    simp only []
    rw [max_eq_right (sub_nonpos.mpr d)]
  · -- the upper clamp binds when the request ends at or after the video
    intro h
    have c : (videoEndTs : ℚ) ≤ (endTs : ℚ) := by exact_mod_cast h
    have d : (videoEndTs : ℚ) / 1000 ≤ (endTs : ℚ) / 1000 := by
      apply div_le_div_of_nonneg_right c
      norm_num
    simp only []
    rw [min_eq_right d, hdur]
  · -- inside the extent both bounds lie in [0, duration]
    intro h1 h2 h3
    have c1 : (videoStartTs : ℚ) ≤ (startTs : ℚ) := by exact_mod_cast h1
    have c2 : (startTs : ℚ) ≤ (endTs : ℚ) := by exact_mod_cast h2
    have c3 : (endTs : ℚ) ≤ (videoEndTs : ℚ) := by exact_mod_cast h3
    have d1 : (videoStartTs : ℚ) / 1000 ≤ (startTs : ℚ) / 1000 := by
      apply div_le_div_of_nonneg_right c1
      norm_num
    have d2 : (startTs : ℚ) / 1000 ≤ (endTs : ℚ) / 1000 := by
      apply div_le_div_of_nonneg_right c2
      norm_num
    have d3 : (endTs : ℚ) / 1000 ≤ (videoEndTs : ℚ) / 1000 := by
      apply div_le_div_of_nonneg_right c3
      norm_num
    constructor
    · rw [hdur]
      apply max_le
      · linarith
      · linarith
    · have hminge : (videoStartTs : ℚ) / 1000 ≤
          min ((endTs : ℚ) / 1000) ((videoEndTs : ℚ) / 1000) :=
        le_min (by linarith) (by linarith)
      simp only []
      linarith

theorem claim_C9_camera_clamp_witness :
    ((-5000 : Int) ≤ 0 ∧ (10000 : Int) ≤ 20000) ∧
    (camera_trim_times 0 10000 (-5000) 20000).1 = 0 ∧
    (camera_trim_times 0 10000 (-5000) 20000).2 =
      (((10000 : Int) : ℚ) - ((0 : Int) : ℚ)) / 1000 ∧
    ((0 : Int) ≤ 2000 ∧ (2000 : Int) ≤ 5000 ∧ (5000 : Int) ≤ 10000) ∧
    ((camera_trim_times 0 10000 2000 5000).1 ≤
        (((10000 : Int) : ℚ) - ((0 : Int) : ℚ)) / 1000 ∧
      0 ≤ (camera_trim_times 0 10000 2000 5000).2) :=
  ⟨⟨by decide, by decide⟩,
   (claim_C9_camera_clamp 0 10000 (-5000) 20000).2.2.1 (by decide),
   (claim_C9_camera_clamp 0 10000 (-5000) 20000).2.2.2.1 (by decide),
   ⟨by decide, by decide, by decide⟩,
   (claim_C9_camera_clamp 0 10000 2000 5000).2.2.2.2 (by decide) (by decide) (by decide)⟩

/-! #### Supporting lemmas for the gap-segmentation equivalence -/

theorem range_map_getD_eq_zip {α β : Type} (d : α) (f : α → α → β) : ∀ (l : List α),
    (List.range (l.length - 1)).map (fun i => f (l.getD i d) (l.getD (i + 1) d)) =
      (l.zip l.tail).map (fun p => f p.1 p.2) := by
  intro l
  induction l with
  | nil => rfl
  | cons a t ih =>
    cases t with
    | nil => rfl
    | cons b t2 =>
      have hlen : (a :: b :: t2).length - 1 = ((b :: t2).length - 1) + 1 := by
        simp
      rw [hlen, List.range_succ_eq_map, List.map_cons, List.map_map]
      have hmap : ∀ i ∈ List.range ((b :: t2).length - 1),
          ((fun i => f ((a :: b :: t2).getD i d) ((a :: b :: t2).getD (i + 1) d)) ∘
            Nat.succ) i =
          (fun i => f ((b :: t2).getD i d) ((b :: t2).getD (i + 1) d)) i := by
        intro i _
        simp [Function.comp]
      rw [List.map_congr_left hmap, ih]
      rfl

theorem consRun_ne_nil (x : Int) (rs : List (List Int)) : consRun x rs ≠ [] := by
  cases rs with
  | nil => simp [consRun]
  | cons r rs => simp [consRun]

theorem gapRuns_ne_nil (maxGap : Int) : ∀ (ts : List Int), ts ≠ [] →
    gapRuns maxGap ts ≠ [] := by
  intro ts
  induction ts with
  | nil => intro h; exact absurd rfl h
  | cons x t _ =>
    intro _
    cases t with
    | nil => simp [gapRuns]
    | cons y rest =>
      simp only [gapRuns]
      by_cases h : maxGap < y - x
      · rw [if_pos h]; simp
      · rw [if_neg h]; exact consRun_ne_nil x _

theorem gapRuns_mem_ne_nil (maxGap : Int) : ∀ (ts : List Int) (r : List Int),
    r ∈ gapRuns maxGap ts → r ≠ [] := by
  intro ts
  induction ts with
  | nil => intro r hr; simp [gapRuns] at hr
  | cons x t ih =>
    intro r hr
    cases t with
    | nil =>
      simp [gapRuns] at hr
      simp [hr]
    | cons y rest =>
      simp only [gapRuns] at hr
      by_cases h : maxGap < y - x
      · rw [if_pos h] at hr
        rcases List.mem_cons.mp hr with h1 | h1
        · subst h1; simp
        · exact ih r h1
      · rw [if_neg h] at hr
        cases hcase : gapRuns maxGap (y :: rest) with
        | nil => exact absurd hcase (gapRuns_ne_nil maxGap (y :: rest) (by simp))
        | cons q qs =>
          rw [hcase] at hr
          simp only [consRun] at hr
          rcases List.mem_cons.mp hr with h1 | h1
          · subst h1
            have hq : q ≠ [] := ih q (by rw [hcase]; exact List.mem_cons_self q qs)
            simp
          · exact ih r (by rw [hcase]; exact List.mem_cons_of_mem q h1)

theorem getLastD_irrel {α : Type} (d₁ d₂ : α) : ∀ (l : List α), l ≠ [] →
    l.getLastD d₁ = l.getLastD d₂ := by
  intro l
  cases l with
  | nil => intro h; exact absurd rfl h
  | cons x t => intro _; rfl

theorem getD_cons_of_pos {α : Type} (d : α) (x : α) (l : List α) {b : Nat}
    (hb : 1 ≤ b) : (x :: l).getD b d = l.getD (b - 1) d := by
  cases b with
  | zero => omega
  | succ b => simp

theorem segsOf_eq_zip (g : Int) (ts : List Int) :
    segsOf g ts = ((segBounds g ts).zip (segBounds g ts).tail).map
      (fun p => (ts.getD p.1 0, ts.getD (p.2 - 1) 0)) := by
  unfold segsOf
  exact range_map_getD_eq_zip 0 (fun a b => (ts.getD a 0, ts.getD (b - 1) 0))
    (segBounds g ts)

theorem gapPositions_cons (g x y : Int) (rest : List Int) :
    gapPositions g (x :: y :: rest) =
      (if g < y - x then [0] else []) ++ (gapPositions g (y :: rest)).map (· + 1) := by
  unfold gapPositions
  have hlen : (x :: y :: rest).length - 1 = ((y :: rest).length - 1) + 1 := by simp
  rw [hlen, List.range_succ_eq_map]
  by_cases h : g < y - x
  · rw [if_pos h]
    rw [List.filter_cons_of_pos (by simpa using h)]
    rw [List.filter_map Nat.succ (List.range ((y :: rest).length - 1))]
    rfl
  · rw [if_neg h]
    rw [List.filter_cons_of_neg (by simpa using h)]
    rw [List.filter_map Nat.succ (List.range ((y :: rest).length - 1))]
    rfl

theorem segBounds_tail_pos (g : Int) (ts : List Int) (hne : ts ≠ []) :
    ∀ b ∈ (segBounds g ts).tail, 1 ≤ b := by
  intro b hb
  simp only [segBounds, List.tail_cons] at hb
  rcases List.mem_append.mp hb with h | h
  · rcases List.mem_map.mp h with ⟨i, _, hi⟩
    omega
  · have : b = ts.length := by simpa using h
    subst this
    have : 0 < ts.length := List.length_pos.mpr hne
    omega

theorem segsOf_cons_gap (g x y : Int) (rest : List Int) (h : g < y - x) :
    segsOf g (x :: y :: rest) = (x, x) :: segsOf g (y :: rest) := by
  have hb : segBounds g (x :: y :: rest) =
      0 :: (segBounds g (y :: rest)).map (· + 1) := by
    unfold segBounds
    rw [gapPositions_cons, if_pos h]
    simp [List.map_map, Function.comp]
  rw [segsOf_eq_zip, segsOf_eq_zip, hb]
  have hBdef : segBounds g (y :: rest) =
      0 :: ((gapPositions g (y :: rest)).map (· + 1) ++ [(y :: rest).length]) := rfl
  set tail2 := (gapPositions g (y :: rest)).map (· + 1) ++ [(y :: rest).length]
    with htail2
  rw [hBdef]
  simp only [List.map_cons, List.tail_cons]
  -- the zipped boundary pairs of the extended list
  have hzip : (0 :: 1 :: tail2.map (· + 1)).zip (1 :: tail2.map (· + 1)) =
      (0, 1) :: (((0 :: tail2).zip tail2).map (Prod.map (· + 1) (· + 1))) := by
    rw [List.zip_cons_cons]
    rw [← List.zip_map (· + 1) (· + 1) (0 :: tail2) tail2]
    rfl
  rw [hzip]
  rw [List.map_cons]
  congr 1
  -- the remaining segments coincide after the index shift
  rw [List.map_map]
  refine List.map_congr_left ?_
  rintro ⟨a, b⟩ hmem
  have hb2 : b ∈ tail2 := (List.of_mem_zip hmem).2
  have hb1 : 1 ≤ b := by
    refine segBounds_tail_pos g (y :: rest) (by simp) b ?_
    rw [hBdef]
    simpa using hb2
  simp only [Function.comp, Prod.map]
  have e1 : (x :: y :: rest).getD (a + 1) 0 = (y :: rest).getD a 0 := by simp
  have e2 : (x :: y :: rest).getD (b + 1 - 1) 0 = (y :: rest).getD (b - 1) 0 := by
    have : b + 1 - 1 = b := by omega
    rw [this, getD_cons_of_pos _ _ _ hb1]
  rw [e1, e2]

theorem segsOf_cons_nogap (g x y : Int) (rest : List Int) (h : ¬ g < y - x) :
    segsOf g (x :: y :: rest) =
      (x, ((segsOf g (y :: rest)).headD (0, 0)).2) :: (segsOf g (y :: rest)).tail := by
  have hb : segBounds g (x :: y :: rest) =
      0 :: ((gapPositions g (y :: rest)).map (· + 1) ++ [(y :: rest).length]).map
        (· + 1) := by
    unfold segBounds
    rw [gapPositions_cons, if_neg h]
    simp [List.map_map, Function.comp]
  have hBdef : segBounds g (y :: rest) =
      0 :: ((gapPositions g (y :: rest)).map (· + 1) ++ [(y :: rest).length]) := rfl
  set tail2 := (gapPositions g (y :: rest)).map (· + 1) ++ [(y :: rest).length]
    with htail2
  have htail2ne : tail2 ≠ [] := by
    rw [htail2]
    simp
  cases hcase : tail2 with
  | nil => exact absurd hcase htail2ne
  | cons t0 trest =>
    have ht0 : 1 ≤ t0 := by
      refine segBounds_tail_pos g (y :: rest) (by simp) t0 ?_
      rw [hBdef, hcase]
      simp
    have htrest : ∀ b ∈ trest, 1 ≤ b := by
      intro b hbmem
      refine segBounds_tail_pos g (y :: rest) (by simp) b ?_
      rw [hBdef, hcase]
      simp [hbmem]
    rw [segsOf_eq_zip, segsOf_eq_zip, hb, hBdef, hcase]
    simp only [List.map_cons, List.tail_cons]
    have hzip1 : (0 :: (t0 + 1) :: trest.map (· + 1)).zip
        ((t0 + 1) :: trest.map (· + 1)) =
        (0, t0 + 1) :: (((t0 :: trest).zip trest).map (Prod.map (· + 1) (· + 1))) := by
      rw [List.zip_cons_cons]
      rw [← List.zip_map (· + 1) (· + 1) (t0 :: trest) trest]
      rfl
    have hzip2 : (0 :: t0 :: trest).zip (t0 :: trest) =
        (0, t0) :: ((t0 :: trest).zip trest) := List.zip_cons_cons
    rw [hzip1, hzip2]
    simp only [List.map_cons, List.headD_cons, List.tail_cons]
    congr 1
    · -- the first segment: same right endpoint
      have he : t0 + 1 - 1 = t0 := by omega
      rw [he, getD_cons_of_pos _ _ _ ht0]
      rfl
    · -- the remaining segments coincide after the index shift
      rw [List.map_map]
      refine List.map_congr_left ?_
      rintro ⟨a, b⟩ hmem
      have hb2 : b ∈ trest := (List.of_mem_zip hmem).2
      have hb1 : 1 ≤ b := htrest b hb2
      simp only [Function.comp, Prod.map]
      have e1 : (x :: y :: rest).getD (a + 1) 0 = (y :: rest).getD a 0 := by simp
      have e2 : (x :: y :: rest).getD (b + 1 - 1) 0 = (y :: rest).getD (b - 1) 0 := by
        have : b + 1 - 1 = b := by omega
        rw [this, getD_cons_of_pos _ _ _ hb1]
      rw [e1, e2]

theorem gapPositions_eq_nil_iff (g : Int) : ∀ (ts : List Int),
    gapPositions g ts = [] ↔ ts.Chain' (fun a b : Int => b - a ≤ g) := by
  intro ts
  induction ts with
  | nil => simp [gapPositions]
  | cons x t ih =>
    cases t with
    | nil => simp [gapPositions]
    | cons y rest =>
      rw [gapPositions_cons, List.chain'_cons]
      by_cases h : g < y - x
      · rw [if_pos h]
        simp [not_le.mpr h]
      · rw [if_neg h]
        simp [not_lt.mp h, ih]

theorem segsOf_eq_gapRuns (g : Int) : ∀ (ts : List Int), ts ≠ [] →
    segsOf g ts = (gapRuns g ts).map (fun r => (r.headD 0, r.getLastD 0)) := by
  intro ts
  induction ts with
  | nil => intro h; exact absurd rfl h
  | cons x t ih =>
    intro _
    cases t with
    | nil => rfl
    | cons y rest =>
      by_cases h : g < y - x
      · rw [segsOf_cons_gap g x y rest h, ih (by simp)]
        simp only [gapRuns, if_pos h, List.map_cons]
        rfl
      · rw [segsOf_cons_nogap g x y rest h, ih (by simp)]
        simp only [gapRuns, if_neg h]
        cases hR : gapRuns g (y :: rest) with
        | nil => exact absurd hR (gapRuns_ne_nil g (y :: rest) (by simp))
        | cons r rs =>
          have hrne : r ≠ [] := gapRuns_mem_ne_nil g (y :: rest) r
            (by rw [hR]; exact List.mem_cons_self r rs)
          simp only [consRun, List.map_cons, List.headD_cons, List.tail_cons]
          congr 1
          congr 1
          rw [List.getLastD_cons 0 x r]
          exact getLastD_irrel 0 x r hrne

theorem split_interrupted_ts_eq (maxGap minLen : Int) (ts : List Int) :
    split_interrupted_ts maxGap minLen ts =
      if ts.Chain' (fun a b : Int => b - a ≤ maxGap) then none
      else some
        (((gapRuns maxGap ts).map (fun r => (r.headD 0, r.getLastD 0))).filter
          (fun p => minLen ≤ p.2 - p.1)) := by
  unfold split_interrupted_ts
  by_cases h : gapPositions maxGap ts = []
  · rw [if_pos h, if_pos ((gapPositions_eq_nil_iff maxGap ts).mp h)]
  · rw [if_neg h, if_neg (fun hc => h ((gapPositions_eq_nil_iff maxGap ts).mpr hc))]
    have hne : ts ≠ [] := by
      intro hnil
      apply h
      rw [hnil]
      rfl
    rw [segsOf_eq_gapRuns maxGap ts hne]

/-- Claim C5: gap segmentation splits the raw timestamp array exactly at
positions whose successive difference strictly exceeds `max_time_gap`
(equivalently: into maximal runs with all successive differences
`≤ max_time_gap`), keeps segments whose length (last minus first timestamp)
is at least `min_session_len`; when there is no such gap, or the device
type has no concept of interruption (camera, label tool), the single
whole-file extent is returned as a singleton list. -/
theorem claim_C5_gap_segmentation (kind : DeviceKind) (maxGap minLen : Int)
    (ts : List Int) (extent : Itv) :
    getGaps kind maxGap minLen ts extent =
      if isInertial kind = true ∧ ¬ ts.Chain' (fun a b : Int => b - a ≤ maxGap)
      then ((gapRuns maxGap ts).map (fun r => (r.headD 0, r.getLastD 0))).filter
        (fun p => minLen ≤ p.2 - p.1)
      else [extent] := by
  have hinertial : ∀ hkind : DeviceKind, hkind = DeviceKind.watch ∨
      hkind = DeviceKind.sensorlogger →
      getGaps hkind maxGap minLen ts extent =
        if isInertial hkind = true ∧ ¬ ts.Chain' (fun a b : Int => b - a ≤ maxGap)
        then ((gapRuns maxGap ts).map (fun r => (r.headD 0, r.getLastD 0))).filter
          (fun p => minLen ≤ p.2 - p.1)
        else [extent] := by
    intro hkind hk
    have hsplit : split_interrupted_ts_of hkind maxGap minLen ts =
        split_interrupted_ts maxGap minLen ts := by
      rcases hk with h | h
      · rw [h]
        rfl
      · rw [h]
        rfl
    have hisin : isInertial hkind = true := by
      rcases hk with h | h
      · rw [h]; rfl
      · rw [h]; rfl
    unfold getGaps
    rw [hsplit, split_interrupted_ts_eq, hisin]
    by_cases hch : ts.Chain' (fun a b : Int => b - a ≤ maxGap)
    · rw [if_pos hch, if_neg (fun hcon => hcon.2 hch)]
    · rw [if_neg hch, if_pos ⟨rfl, hch⟩]
  cases kind with
  | cam =>
    rw [if_neg (by simp [isInertial])]
    rfl
  | timerapp =>
    rw [if_neg (by simp [isInertial])]
    rfl
  | watch => exact hinertial DeviceKind.watch (Or.inl rfl)
  | sensorlogger => exact hinertial DeviceKind.sensorlogger (Or.inr rfl)

/-- Claim C6: for every device type, when the destination path (with the
output-format extension appended) already exists, `trim_raw` returns
`None` and performs no filesystem effect at all (no write, no read of the
raw input); otherwise it produces the artifact (a write of the destination
appears in the trace) and returns the extended output path. -/
theorem claim_C6_trim_skip (kind : DeviceKind) (fs : List String)
    (ext inputPath outputPath : String) :
    ((outputPath ++ ext) ∈ fs →
      trim_raw kind fs ext inputPath outputPath = (none, [])) ∧
    ((outputPath ++ ext) ∉ fs →
      (trim_raw kind fs ext inputPath outputPath).1 = some (outputPath ++ ext) ∧
      FsAction.writeFile (outputPath ++ ext) ∈
        (trim_raw kind fs ext inputPath outputPath).2) := by
  constructor
  · intro h
    unfold trim_raw check_output_path
    rw [if_pos h]
  · intro h
    unfold trim_raw check_output_path
    rw [if_neg h]
    refine ⟨rfl, ?_⟩
    cases kind <;> simp [deviceTrimActions]

theorem claim_C6_trim_skip_witness :
    ("out" ++ ".csv") ∈ ["out.csv"] ∧
    trim_raw DeviceKind.watch ["out.csv"] ".csv" "in.csv" "out" = (none, []) ∧
    ("out" ++ ".csv") ∉ ([] : List String) ∧
    (trim_raw DeviceKind.watch [] ".csv" "in.csv" "out").1 = some ("out" ++ ".csv") :=
  ⟨by decide, (claim_C6_trim_skip DeviceKind.watch ["out.csv"] ".csv" "in.csv" "out").1
      (by decide),
   by decide, ((claim_C6_trim_skip DeviceKind.watch [] ".csv" "in.csv" "out").2
      (by decide)).1⟩

/-- Claim C2 fails on the code: a watch file with raw timestamps
`[0, 10, 5000, 5010]`, device offset 7000 ms (offset-corrected extent
`(7000, 12010)`), gap threshold 1000 ms and minimum segment length 10 ms
contributes its *raw* segments `[(0,10),(5000,5010)]` — without the offset
— to the intersection, so intersecting with a camera covering the same
corrected extent yields no sub-session at all, whereas the offset-corrected
segments `[(7000,7010),(12000,12010)]` would intersect exactly there. -/
theorem claim_C2_offset_bug :
    find_start_end_ts_of_session 1000 10
      [⟨DeviceKind.watch, 7000, 12010, [0, 10, 5000, 5010]⟩,
       ⟨DeviceKind.cam, 7000, 12010, []⟩] = Except.ok [] ∧
    getGaps DeviceKind.watch 1000 10 [0, 10, 5000, 5010] (7000, 12010) =
      [(0, 10), (5000, 5010)] ∧
    [(0, 10), (5000, 5010)] ≠
      ([(0, 10), (5000, 5010)] : List Itv).map (fun p => (p.1 + 7000, p.2 + 7000)) ∧
    interval_intersection [[(7000, 7010), (12000, 12010)], [(7000, 12010)]] =
      Except.ok [(7000, 7010), (12000, 12010)] := by
  refine ⟨rfl, rfl, by decide, rfl⟩

end PPDC
